import Mathlib

/-!
# A shallow embedding of rstar's `AABB` envelope type

This file embeds `src/rstar/src/structures/aabb.rs` in Lean 4 and proves the
geometric/algebraic properties its specification states.

Modelling choices:
* The point capability `P` (with `DIMENSIONS = n`) is modelled as functions
  `Fin n → Int`: exact signed scalar arithmetic, the scalar order is the usual
  total order on `Int`.  `PointExt::length_2` is the sum of squared
  coordinates, `Point::sub` is componentwise subtraction, and
  `min_point`/`max_point` are componentwise `min`/`max`.
* `P::Scalar::min_value()` / `P::Scalar::max_value()` (the `Bounded` trait used
  by `new_empty`) have no counterpart on `Int`, so `new_empty` takes the two
  bounds `MIN` and `MAX` as explicit parameters.
* `all_component_wise` is the decidable conjunction of a componentwise
  predicate, and the commutative folds of `area` / `margin_value` / `length_2`
  are written as `Finset` products/sums over the coordinates (the source folds
  left with `*` resp. `+` over the same terms, which is equal by
  commutativity).  The index-order-sensitive loop of `min_max_dist_2` is
  modelled by an explicit recursion (`AABB.mmLoop`) mirroring the Rust loop,
  including its `new_dist < result || i == 0` update condition.
* `slice::sort_by` (a stable merge sort driven by a comparator) is modelled by
  `List.mergeSort` with the comparator `partial_cmp(..).unwrap()` specialised
  to the decidable `≤` of `Int` keys.
-/

/-- The point type: `DIMENSIONS = n`, scalar = `Int`. -/
abbrev Pt (n : Nat) := Fin n → Int

/-- `PointExt::length_2`: the sum of the squared coordinates. -/
def length_2 {n : Nat} (p : Pt n) : Int := ∑ i, p i * p i

/-- `Point::sub`: componentwise subtraction. -/
def psub {n : Nat} (p q : Pt n) : Pt n := fun i => p i - q i

/-- The AABB struct: a `lower` and an `upper` corner point. -/
structure AABB (n : Nat) where
  lower : Pt n
  upper : Pt n
deriving DecidableEq

namespace AABB

variable {n : Nat}

/-- `AABB::from_point`: the AABB encompassing a single point. -/
def from_point (p : Pt n) : AABB n := ⟨p, p⟩

/-- `AABB::from_corners`: lower = componentwise min, upper = componentwise max. -/
def from_corners (p1 p2 : Pt n) : AABB n :=
  ⟨fun i => min (p1 i) (p2 i), fun i => max (p1 i) (p2 i)⟩

/-- `AABB::new_empty`: the sentinel empty AABB, `lower = MAX`, `upper = MIN`
(the scalar bounds are explicit parameters here, see the header note). -/
def new_empty (d : Nat) (MIN MAX : Int) : AABB d := ⟨fun _ => MAX, fun _ => MIN⟩

/-- `AABB::min_point`: componentwise `min(upper, max(lower, q))`. -/
def min_point (b : AABB n) (q : Pt n) : Pt n :=
  fun i => min (b.upper i) (max (b.lower i) (q i))

/-- `Envelope::contains_point`:
`lower.all_component_wise(q, ≤) && upper.all_component_wise(q, ≥)`. -/
def contains_point (b : AABB n) (q : Pt n) : Bool :=
  decide (∀ i, b.lower i ≤ q i) && decide (∀ i, b.upper i ≥ q i)

/-- `AABB::distance_2`: `0` when the point is contained, otherwise the squared
length of `min_point(q) - q`. -/
def distance_2 (b : AABB n) (q : Pt n) : Int :=
  if b.contains_point q then 0 else length_2 (psub (b.min_point q) q)

/-- `Envelope::contains_envelope`: componentwise `self.lower ≤ other.lower`
and `self.upper ≥ other.upper`. -/
def contains_envelope (b other : AABB n) : Bool :=
  decide (∀ i, b.lower i ≤ other.lower i) && decide (∀ i, b.upper i ≥ other.upper i)

/-- `Envelope::merged`: componentwise min of lowers and max of uppers. -/
def merged (b other : AABB n) : AABB n :=
  ⟨fun i => min (b.lower i) (other.lower i), fun i => max (b.upper i) (other.upper i)⟩

/-- `Envelope::intersects`: componentwise `self.lower ≤ other.upper` and
`self.upper ≥ other.lower`. -/
def intersects (b other : AABB n) : Bool :=
  decide (∀ i, b.lower i ≤ other.upper i) && decide (∀ i, b.upper i ≥ other.lower i)

/-- `Envelope::area`: fold of `max(diag_i, 0) * acc` with init `1` over the
diagonal `upper - lower`; by commutativity of `*` it is the product of the
zero-clamped extents. -/
def area (b : AABB n) : Int := ∏ i, max (b.upper i - b.lower i) 0

/-- `Envelope::intersection_area`: the `area` of the candidate box
`⟨max lowers, min uppers⟩` (possibly inverted; `area` clamps it to 0). -/
def intersection_area (b other : AABB n) : Int :=
  area ⟨fun i => max (b.lower i) (other.lower i), fun i => min (b.upper i) (other.upper i)⟩

/-- `Envelope::margin_value`: fold of `acc + diag_i` with init `0`, clamped at
zero: `max (Σ (upper_i - lower_i)) 0`. -/
def margin_value (b : AABB n) : Int := max (∑ i, (b.upper i - b.lower i)) 0

/-- The `min` vector of `min_max_dist_2`: for each dimension, whichever of the
signed offsets `lower - q`, `upper - q` has the smaller absolute value
(strict-less on absolute values, ties go to `upper`). -/
def mmNear (b : AABB n) (q : Pt n) : Pt n :=
  fun i => if |b.lower i - q i| < |b.upper i - q i| then b.lower i - q i else b.upper i - q i

/-- The `max` vector of `min_max_dist_2`: the other of the two signed offsets. -/
def mmFar (b : AABB n) (q : Pt n) : Pt n :=
  fun i => if |b.lower i - q i| < |b.upper i - q i| then b.upper i - q i else b.lower i - q i

/-- Candidate `k` of `min_max_dist_2`: `length_2` of the point equal to the
`min` vector except with component `k` set to the `max` vector's component. -/
def mmCand (b : AABB n) (q : Pt n) (k : Nat) : Int :=
  length_2 (fun i => if (i : Nat) = k then b.mmFar q i else b.mmNear q i)

/-- The result loop of `min_max_dist_2`: `result` starts at `0`; for each
`i = 0, 1, ...` in order, `result` is replaced by candidate `i` exactly when
`new_dist < result || i == 0`. -/
def mmLoop (cand : Nat → Int) : Nat → Int
  | 0 => 0
  | i + 1 =>
    let result := mmLoop cand i
    let new_dist := cand i
    if new_dist < result ∨ i = 0 then new_dist else result

/-- `Envelope::min_max_dist_2`: run the result loop over all `n` candidates. -/
def min_max_dist_2 (b : AABB n) (q : Pt n) : Int :=
  mmLoop (b.mmCand q) n

/-- `Envelope::sort_envelopes`: stable sort of the slice by the
`lower[axis]` coordinate of the key envelope (Rust's `slice::sort_by` with the
comparator `partial_cmp(..).unwrap()`; on `Int` keys the order is total). -/
def sort_envelopes {T : Type} (axis : Fin n) (envelopes : List T) (f : T → AABB n) : List T :=
  envelopes.mergeSort (fun l r => decide ((f l).lower axis ≤ (f r).lower axis))

end AABB

/-! ## Helper lemmas -/

/-- Squares are monotone in the absolute value. -/
theorem mul_self_le_of_abs_le {a b : Int} (h : |a| ≤ |b|) : a * a ≤ b * b := by
  have h2 := mul_self_le_mul_self (abs_nonneg a) h
  simpa [abs_mul_abs_self] using h2

/-- The clamp residual `min hi (max lo x) - x` is, in absolute value, at most
each of the two corner offsets `lo - x` and `hi - x`, provided `lo ≤ hi`. -/
theorem residual_abs_le (lo hi x : Int) (hwf : lo ≤ hi) :
    |min hi (max lo x) - x| ≤ |lo - x| ∧ |min hi (max lo x) - x| ≤ |hi - x| := by
  rcases le_total x lo with h | h
  · have e : min hi (max lo x) = lo := by omega
    rw [e, abs_of_nonneg (by omega : (0:Int) ≤ lo - x),
      abs_of_nonneg (by omega : (0:Int) ≤ hi - x)]
    omega
  · rcases le_total x hi with h2 | h2
    · have e : min hi (max lo x) = x := by omega
      rw [e]
      simp [abs_nonneg]
    · have e : min hi (max lo x) = hi := by omega
      rw [e, abs_of_nonpos (by omega : lo - x ≤ (0:Int)),
        abs_of_nonpos (by omega : hi - x ≤ (0:Int))]
      omega

/-! ## Claims -/

/-- C10: `merged` is commutative and idempotent:
`A.merged(B) = B.merged(A)` and `A.merged(A) = A`. -/
theorem merged_comm_and_idem (A B : AABB n') :
    A.merged B = B.merged A ∧ A.merged A = A := by
  constructor
  · simp only [AABB.merged, AABB.mk.injEq]
    constructor <;> funext i
    · exact min_comm _ _
    · exact max_comm _ _
  · cases A with
    | mk lo hi =>
      simp only [AABB.merged, AABB.mk.injEq]
      constructor <;> funext i <;> simp

/-- C2 counterexample: for `A = from_corners((0,0),(2,2))` and `q = (-1,-1)`
the code does NOT return `min_max_dist_2 = 5`: the claimed pair of values is
false at this concrete input. -/
theorem s6_values_cex :
    ¬((AABB.from_corners (fun _ => (0:Int)) (fun _ => 2) : AABB 2).distance_2 (fun _ => -1) = 2 ∧
      (AABB.from_corners (fun _ => (0:Int)) (fun _ => 2) : AABB 2).min_max_dist_2 (fun _ => -1) = 5) := by
  decide

/-- C2 amended: for `A = from_corners((0,0),(2,2))` and `q = (-1,-1)` in exact
arithmetic, `distance_2 = 2` and `min_max_dist_2 = 10` (each candidate sets one
coordinate to the far offset `3` and keeps the near offset `1` in the other:
`3² + 1² = 10`). -/
theorem s6_values :
    (AABB.from_corners (fun _ => (0:Int)) (fun _ => 2) : AABB 2).distance_2 (fun _ => -1) = 2 ∧
      (AABB.from_corners (fun _ => (0:Int)) (fun _ => 2) : AABB 2).min_max_dist_2 (fun _ => -1) = 10 := by
  decide

/-- C4 counterexample: the 1-dimensional box with `lower = 2`, `upper = 0` is
inverted, the query `q = 2` is strictly nearer to `lower` than to `upper`, yet
`min_point(q)[0]` is `upper = 0`, not the nearer corner `lower = 2`. -/
theorem min_point_inverted_cex :
    (⟨fun _ => (2:Int), fun _ => 0⟩ : AABB 1).upper 0 < (⟨fun _ => (2:Int), fun _ => 0⟩ : AABB 1).lower 0 ∧
      |(⟨fun _ => (2:Int), fun _ => 0⟩ : AABB 1).lower 0 - 2| < |(⟨fun _ => (2:Int), fun _ => 0⟩ : AABB 1).upper 0 - 2| ∧
      (⟨fun _ => (2:Int), fun _ => 0⟩ : AABB 1).min_point (fun _ => 2) 0 ≠
        (⟨fun _ => (2:Int), fun _ => 0⟩ : AABB 1).lower 0 := by
  decide

/-- C4 amended: in every dimension `min_point(q)[i]` is `upper[i]` when the box
is inverted there (`upper[i] < lower[i]`), and otherwise the clamp of `q[i]`
into `[lower[i], upper[i]]`. -/
theorem min_point_componentwise (b : AABB n') (q : Pt n') (i : Fin n') :
    b.min_point q i =
      if b.upper i < b.lower i then b.upper i
      else if q i < b.lower i then b.lower i
      else if b.upper i < q i then b.upper i
      else q i := by
  simp only [AABB.min_point]
  split <;> rename_i h1
  · omega
  · split <;> rename_i h2
    · omega
    · split <;> omega

/-- C3: the sentinel empty AABB is a two-sided identity of `merged`, for every
AABB all of whose coordinates lie between the scalar bounds `MIN` and `MAX`. -/
theorem merged_new_empty_identity (b : AABB n') (MIN MAX : Int)
    (h : ∀ i, MIN ≤ b.lower i ∧ b.lower i ≤ MAX ∧ MIN ≤ b.upper i ∧ b.upper i ≤ MAX) :
    b.merged (AABB.new_empty n' MIN MAX) = b ∧ (AABB.new_empty n' MIN MAX).merged b = b := by
  cases b with
  | mk lo hi =>
    simp only [AABB.merged, AABB.new_empty, AABB.mk.injEq]
    refine ⟨⟨funext fun i => ?_, funext fun i => ?_⟩, funext fun i => ?_, funext fun i => ?_⟩ <;>
      · have hb := h i
        simp only at hb ⊢
        omega

/-- C3 witness: the hypothesis holds and the identity follows at a concrete
1-dimensional box with bounds `MIN = -5`, `MAX = 5`. -/
theorem merged_new_empty_identity_witness :
    (∀ i : Fin 1, -5 ≤ (⟨fun _ => (0:Int), fun _ => 1⟩ : AABB 1).lower i ∧
        (⟨fun _ => (0:Int), fun _ => 1⟩ : AABB 1).lower i ≤ 5 ∧
        -5 ≤ (⟨fun _ => (0:Int), fun _ => 1⟩ : AABB 1).upper i ∧
        (⟨fun _ => (0:Int), fun _ => 1⟩ : AABB 1).upper i ≤ 5) ∧
      ((⟨fun _ => (0:Int), fun _ => 1⟩ : AABB 1).merged (AABB.new_empty 1 (-5) 5) =
          (⟨fun _ => (0:Int), fun _ => 1⟩ : AABB 1) ∧
        (AABB.new_empty 1 (-5) 5).merged (⟨fun _ => (0:Int), fun _ => 1⟩ : AABB 1) =
          (⟨fun _ => (0:Int), fun _ => 1⟩ : AABB 1)) :=
  ⟨by decide, merged_new_empty_identity _ (-5) 5 (by decide)⟩

/-- C5: the sentinel empty AABB has area zero and margin zero (for a positive
dimension count and scalar bounds with `MIN ≤ MAX`). -/
theorem new_empty_area_margin_zero (d : Nat) (MIN MAX : Int) (hd : 0 < d) (h : MIN ≤ MAX) :
    (AABB.new_empty d MIN MAX).area = 0 ∧ (AABB.new_empty d MIN MAX).margin_value = 0 := by
  have hfac : max (MIN - MAX) (0:Int) = 0 := by omega
  constructor
  · simp only [AABB.area, AABB.new_empty, hfac]
    rw [Finset.prod_const, zero_pow]
    simp only [Finset.card_univ, Fintype.card_fin]
    omega
  · simp only [AABB.margin_value, AABB.new_empty]
    rw [Finset.sum_const]
    have hle : ((@Finset.univ (Fin d) _).card : Int) • (MIN - MAX) ≤ 0 := by
      simp only [smul_eq_mul]
      exact mul_nonpos_of_nonneg_of_nonpos (by positivity) (by omega)
    simp only [nsmul_eq_mul, smul_eq_mul] at hle ⊢
    omega

/-- C5 witness: at `d = 2`, `MIN = -7`, `MAX = 7` the hypotheses hold and both
quantities are zero. -/
theorem new_empty_area_margin_zero_witness :
    (0 < 2 ∧ (-7:Int) ≤ 7) ∧
      ((AABB.new_empty 2 (-7) 7).area = 0 ∧ (AABB.new_empty 2 (-7) 7).margin_value = 0) :=
  ⟨⟨by decide, by decide⟩, new_empty_area_margin_zero 2 (-7) 7 (by decide) (by decide)⟩

/-- C6: `contains_point` is true iff `lower[i] ≤ q[i] ≤ upper[i]` in every
dimension, and the sentinel empty AABB (with `MIN < MAX` and a positive
dimension count) contains no point. -/
theorem contains_point_correct (b : AABB n') (q : Pt n') (MIN MAX : Int)
    (hn : 0 < n') (hlt : MIN < MAX) :
    (b.contains_point q = true ↔ ∀ i, b.lower i ≤ q i ∧ q i ≤ b.upper i) ∧
      (AABB.new_empty n' MIN MAX).contains_point q = false := by
  constructor
  · simp only [AABB.contains_point, Bool.and_eq_true, decide_eq_true_eq, ge_iff_le]
    constructor
    · rintro ⟨h1, h2⟩ i
      exact ⟨h1 i, h2 i⟩
    · intro h
      exact ⟨fun i => (h i).1, fun i => (h i).2⟩
  · rw [Bool.eq_false_iff]
    intro hcon
    simp only [AABB.contains_point, AABB.new_empty, Bool.and_eq_true, decide_eq_true_eq,
      ge_iff_le] at hcon
    rcases hcon with ⟨h1, h2⟩
    have i0 : Fin n' := ⟨0, hn⟩
    have := h1 i0
    have := h2 i0
    omega

/-- C6 witness: at a concrete 1-dimensional instance with `MIN = 0 < 1 = MAX`,
the hypotheses hold and the sentinel contains no point. -/
theorem contains_point_correct_witness :
    (0 < 1 ∧ (0:Int) < 1) ∧
      (AABB.new_empty 1 0 1).contains_point (fun _ => 0) = false :=
  ⟨⟨by decide, by decide⟩,
    (contains_point_correct (AABB.new_empty 1 0 1) (fun _ => 0) 0 1 (by decide) (by decide)).2⟩

/-- C7: `intersects` is symmetric, and containment of a non-empty envelope
implies intersection. -/
theorem intersects_symm_and_of_contains (A B : AABB n') :
    A.intersects B = B.intersects A ∧
      ((∀ i, B.lower i ≤ B.upper i) → A.contains_envelope B = true → A.intersects B = true) := by
  constructor
  · rw [Bool.eq_iff_iff]
    simp only [AABB.intersects, Bool.and_eq_true, decide_eq_true_eq, ge_iff_le]
    constructor
    · rintro ⟨h1, h2⟩
      exact ⟨h2, h1⟩
    · rintro ⟨h1, h2⟩
      exact ⟨h2, h1⟩
  · intro hB hc
    simp only [AABB.contains_envelope, Bool.and_eq_true, decide_eq_true_eq, ge_iff_le] at hc
    simp only [AABB.intersects, Bool.and_eq_true, decide_eq_true_eq, ge_iff_le]
    constructor
    · intro i
      have := hc.1 i
      have := hB i
      omega
    · intro i
      have := hc.2 i
      have := hB i
      omega

/-- C7 witness: for `A = [0,3]`, `B = [1,2]` in one dimension, B is well formed
and contained in A, and A intersects B. -/
theorem intersects_symm_and_of_contains_witness :
    ((∀ i : Fin 1, (⟨fun _ => (1:Int), fun _ => 2⟩ : AABB 1).lower i ≤
          (⟨fun _ => (1:Int), fun _ => 2⟩ : AABB 1).upper i) ∧
        (⟨fun _ => (0:Int), fun _ => 3⟩ : AABB 1).contains_envelope
          (⟨fun _ => (1:Int), fun _ => 2⟩ : AABB 1) = true) ∧
      (⟨fun _ => (0:Int), fun _ => 3⟩ : AABB 1).intersects
        (⟨fun _ => (1:Int), fun _ => 2⟩ : AABB 1) = true :=
  ⟨⟨by decide, by decide⟩,
    (intersects_symm_and_of_contains (⟨fun _ => (0:Int), fun _ => 3⟩ : AABB 1)
        (⟨fun _ => (1:Int), fun _ => 2⟩ : AABB 1)).2 (by decide) (by decide)⟩

/-- C8: for well-formed A and B, `intersection_area` is at most the smaller of
the two areas, and it is zero whenever the boxes are disjoint in some
dimension. -/
theorem intersection_area_bounds (A B : AABB n')
    (hA : ∀ i, A.lower i ≤ A.upper i) (hB : ∀ i, B.lower i ≤ B.upper i) :
    A.intersection_area B ≤ min A.area B.area ∧
      ((∃ i, A.upper i < B.lower i ∨ B.upper i < A.lower i) →
        A.intersection_area B = 0) := by
  simp only [AABB.intersection_area, AABB.area]
  constructor
  · apply le_min
    · apply Finset.prod_le_prod
      · intro i _
        exact le_max_right _ _
      · intro i _
        omega
    · apply Finset.prod_le_prod
      · intro i _
        exact le_max_right _ _
      · intro i _
        omega
  · rintro ⟨i, hi⟩
    apply Finset.prod_eq_zero (Finset.mem_univ i)
    omega

/-- C8 witness: for `A = [0,1]`, `B = [2,3]` in one dimension (well formed and
disjoint) the area bound holds and the intersection area is zero. -/
theorem intersection_area_bounds_witness :
    ((∀ i : Fin 1, (⟨fun _ => (0:Int), fun _ => 1⟩ : AABB 1).lower i ≤
          (⟨fun _ => (0:Int), fun _ => 1⟩ : AABB 1).upper i) ∧
      (∀ i : Fin 1, (⟨fun _ => (2:Int), fun _ => 3⟩ : AABB 1).lower i ≤
          (⟨fun _ => (2:Int), fun _ => 3⟩ : AABB 1).upper i) ∧
      (∃ i : Fin 1, (⟨fun _ => (0:Int), fun _ => 1⟩ : AABB 1).upper i <
            (⟨fun _ => (2:Int), fun _ => 3⟩ : AABB 1).lower i ∨
          (⟨fun _ => (2:Int), fun _ => 3⟩ : AABB 1).upper i <
            (⟨fun _ => (0:Int), fun _ => 1⟩ : AABB 1).lower i)) ∧
      (⟨fun _ => (0:Int), fun _ => 1⟩ : AABB 1).intersection_area
        (⟨fun _ => (2:Int), fun _ => 3⟩ : AABB 1) = 0 :=
  ⟨⟨by decide, by decide, by decide⟩,
    (intersection_area_bounds (⟨fun _ => (0:Int), fun _ => 1⟩ : AABB 1)
        (⟨fun _ => (2:Int), fun _ => 3⟩ : AABB 1) (by decide) (by decide)).2 (by decide)⟩

/-- C9: after `sort_envelopes(axis, xs, f)` the sequence of
`f(item).lower[axis]` key values along the slice is non-decreasing (on the
`Int` scalar every pair of keys is comparable). -/
theorem sort_envelopes_sorted {T : Type} (axis : Fin n') (xs : List T) (f : T → AABB n') :
    ((AABB.sort_envelopes axis xs f).map (fun t => (f t).lower axis)).Pairwise (· ≤ ·) := by
  rw [List.pairwise_map]
  have htrans : ∀ a b c : T,
      (decide ((f a).lower axis ≤ (f b).lower axis) : Bool) = true →
      (decide ((f b).lower axis ≤ (f c).lower axis) : Bool) = true →
      (decide ((f a).lower axis ≤ (f c).lower axis) : Bool) = true := by
    intro a b c h1 h2
    simp only [decide_eq_true_eq] at h1 h2 ⊢
    omega
  have htotal : ∀ a b : T,
      ((decide ((f a).lower axis ≤ (f b).lower axis) : Bool) ||
        (decide ((f b).lower axis ≤ (f a).lower axis) : Bool)) = true := by
    intro a b
    simp only [Bool.or_eq_true, decide_eq_true_eq]
    omega
  have h := @List.sorted_mergeSort T
    (fun l r => decide ((f l).lower axis ≤ (f r).lower axis)) htrans htotal xs
  exact h.imp fun hab => by simpa using hab

/-- Per-dimension: the squared clamp residual of `min_point` is at most the
squared near offset, which is at most the squared far offset. -/
theorem residual_sq_le_near_far (b : AABB n') (q : Pt n') (i : Fin n')
    (hwf : b.lower i ≤ b.upper i) :
    (b.min_point q i - q i) * (b.min_point q i - q i) ≤ b.mmNear q i * b.mmNear q i ∧
      b.mmNear q i * b.mmNear q i ≤ b.mmFar q i * b.mmFar q i := by
  have hres := residual_abs_le (b.lower i) (b.upper i) (q i) hwf
  by_cases hc : |b.lower i - q i| < |b.upper i - q i|
  · constructor
    · simp only [AABB.mmNear, AABB.min_point, if_pos hc]
      exact mul_self_le_of_abs_le hres.1
    · simp only [AABB.mmNear, AABB.mmFar, if_pos hc]
      exact mul_self_le_of_abs_le (le_of_lt hc)
  · constructor
    · simp only [AABB.mmNear, AABB.min_point, if_neg hc]
      exact mul_self_le_of_abs_le hres.2
    · simp only [AABB.mmNear, AABB.mmFar, if_neg hc]
      exact mul_self_le_of_abs_le (not_lt.mp hc)

/-- Every candidate of `min_max_dist_2` dominates `distance_2`. -/
theorem distance_2_le_mmCand (b : AABB n') (q : Pt n')
    (hwf : ∀ i, b.lower i ≤ b.upper i) (k : Nat) :
    b.distance_2 q ≤ b.mmCand q k := by
  unfold AABB.distance_2
  split
  · unfold AABB.mmCand length_2
    exact Finset.sum_nonneg fun i _ => mul_self_nonneg _
  · unfold AABB.mmCand length_2 psub
    apply Finset.sum_le_sum
    intro i _
    have h := residual_sq_le_near_far b q i (hwf i)
    by_cases hik : (i : Nat) = k
    · simp only [if_pos hik]
      exact le_trans h.1 h.2
    · simp only [if_neg hik]
      exact h.1

/-- The result loop of `min_max_dist_2` stays above any common lower bound of
the candidates, once at least one iteration has run. -/
theorem mmLoop_ge_of_forall (cand : Nat → Int) (B : Int) (h : ∀ k, B ≤ cand k) :
    ∀ m, 1 ≤ m → B ≤ AABB.mmLoop cand m := by
  intro m
  induction m with
  | zero =>
    intro h0
    omega
  | succ i ih =>
    intro _
    show B ≤ if cand i < AABB.mmLoop cand i ∨ i = 0 then cand i else AABB.mmLoop cand i
    split
    · exact h i
    · rename_i hc
      push_neg at hc
      exact ih (by omega)

/-- C1: for every well-formed non-empty AABB and every query point,
`distance_2(q) ≥ 0` and `min_max_dist_2(q) ≥ distance_2(q)`. -/
theorem distance_2_nonneg_and_le_min_max_dist_2 (b : AABB n') (q : Pt n')
    (hwf : ∀ i, b.lower i ≤ b.upper i) :
    0 ≤ b.distance_2 q ∧ b.distance_2 q ≤ b.min_max_dist_2 q := by
  have hnn : 0 ≤ b.distance_2 q := by
    unfold AABB.distance_2
    split
    · exact le_refl 0
    · unfold length_2
      exact Finset.sum_nonneg fun i _ => mul_self_nonneg _
  refine ⟨hnn, ?_⟩
  rw [AABB.min_max_dist_2]
  rcases Nat.eq_zero_or_pos n' with h0 | h0
  · subst h0
    have hc : b.contains_point q = true := by
      simp only [AABB.contains_point, Bool.and_eq_true, decide_eq_true_eq]
      exact ⟨fun i => i.elim0, fun i => i.elim0⟩
    simp [AABB.distance_2, hc, AABB.mmLoop]
  · exact mmLoop_ge_of_forall _ _ (distance_2_le_mmCand b q hwf) n' h0

/-- C1 witness: for the 2-dimensional box `[1,4] × [1,5]` and query `(0,0)`,
the well-formedness hypothesis holds, `distance_2` is non-negative and bounded
by `min_max_dist_2`. -/
theorem distance_2_nonneg_and_le_min_max_dist_2_witness :
    (∀ i : Fin 2, (@AABB.from_corners 2 (fun _ => 1) (fun j => if (j : Nat) = 0 then 4 else 5)).lower i ≤
        (@AABB.from_corners 2 (fun _ => 1) (fun j => if (j : Nat) = 0 then 4 else 5)).upper i) ∧
      (0 ≤ (@AABB.from_corners 2 (fun _ => 1) (fun j => if (j : Nat) = 0 then 4 else 5)).distance_2 (fun _ => 0) ∧
        (@AABB.from_corners 2 (fun _ => 1) (fun j => if (j : Nat) = 0 then 4 else 5)).distance_2 (fun _ => 0) ≤
          (@AABB.from_corners 2 (fun _ => 1) (fun j => if (j : Nat) = 0 then 4 else 5)).min_max_dist_2 (fun _ => 0)) :=
  ⟨by decide,
    distance_2_nonneg_and_le_min_max_dist_2
      (@AABB.from_corners 2 (fun _ => 1) (fun j => if (j : Nat) = 0 then 4 else 5))
      (fun _ => 0) (by decide)⟩
